import Mathlib

/-!
Verification of the operation-log commands of the jj CLI
(`cli/src/commands/operation.rs`) and of the description cleanup helper
(`cli/src/description_util.rs`), as a shallow embedding in Lean 4.

Identifiers are natural numbers standing for content hashes
(`OperationId`, `CommitId`, `ChangeId`).  An operation store is a total
function from operation ids to operation data; views carry the seven
fields of `jj_lib::op_store::View`.  Functions translated from the Rust
source keep the source names.  External `jj_lib` collaborators that the
source calls into (the view-merge engine, `op_walk::reparent_range`,
`refs::diff_named_remote_refs`, `text_util::complete_newline`) are not
part of the given sources; they are modelled from the specification and
carry a doc comment saying so.
-/

set_option autoImplicit false

namespace JJ

/-- RefTarget (`jj_lib::op_store::RefTarget`): a named ref is absent,
points at a single commit, or is conflicted with added/removed ids. -/
inductive RefTarget where
  | absent : RefTarget
  | normal (id : Nat) : RefTarget
  | conflicted (added : List Nat) (removed : List Nat) : RefTarget
deriving DecidableEq, Repr

/-- Remote ref tracking state (`jj_lib::op_store::RemoteRefState`). -/
inductive RemoteRefState where
  | New : RemoteRefState
  | Tracking : RemoteRefState
deriving DecidableEq, Repr

/-- Remote-tracking ref (`jj_lib::op_store::RemoteRef`). -/
structure RemoteRef where
  target : RefTarget
  state : RemoteRefState
deriving DecidableEq, Repr

/-- View snapshot (`jj_lib::op_store::View`).  Maps are embedded as total
functions from names; sets of commit ids as characteristic functions. -/
structure StoreView where
  head_ids : Nat → Bool
  local_branches : String → RefTarget
  tags : String → RefTarget
  remote_views : String → String → RemoteRef
  git_refs : String → RefTarget
  git_head : RefTarget
  wc_commit_ids : String → Option Nat

/-- Operation data: ordered parent ids plus the view snapshot. -/
structure OpData where
  parent_ids : List Nat
  view : StoreView

/-- An operation store: operation data keyed by operation id. -/
def OpStore : Type := Nat → OpData

/-- The `--what` selector of `jj op undo` / `jj op restore`
(`UndoWhatToRestore` in `operation.rs`). -/
inductive UndoWhatToRestore where
  | Repo : UndoWhatToRestore
  | RemoteTracking : UndoWhatToRestore
deriving DecidableEq, Repr

/-- `DEFAULT_UNDO_WHAT` from `operation.rs`: restore both portions. -/
def DEFAULT_UNDO_WHAT : List UndoWhatToRestore :=
  [UndoWhatToRestore.Repo, UndoWhatToRestore.RemoteTracking]

/-- Translation of `view_with_desired_portions_restored` from
`operation.rs`: pick the repo portion and the remote portion from either
the view being restored or the current view according to `what`, and
always keep `git_refs` / `git_head` from the current view. -/
def view_with_desired_portions_restored (view_being_restored : StoreView)
    (current_view : StoreView) (what : List UndoWhatToRestore) : StoreView :=
  let repo_source :=
    if UndoWhatToRestore.Repo ∈ what then view_being_restored else current_view
  let remote_source :=
    if UndoWhatToRestore.RemoteTracking ∈ what then view_being_restored else current_view
  { head_ids := repo_source.head_ids
    local_branches := repo_source.local_branches
    tags := repo_source.tags
    remote_views := remote_source.remote_views
    git_refs := current_view.git_refs
    git_head := current_view.git_head
    wc_commit_ids := repo_source.wc_commit_ids }

/-- Modelled from the spec: the three-way ref merge of the View Merge
Engine (spec 4.1), which is code of `jj_lib::refs` not present in the
given sources.  If only one side moved the ref away from the common
ancestor, that side wins; if both moved it to the same target, that
target wins; otherwise the result is conflicted, recording both new
targets as added and the common ancestor as removed. -/
def RefTarget.added_ids : RefTarget → List Nat
  | RefTarget.absent => []
  | RefTarget.normal i => [i]
  | RefTarget.conflicted a _ => a

/-- Modelled from the spec: continuation of the three-way ref merge. -/
def merge_ref_targets (self base other : RefTarget) : RefTarget :=
  if self = base then other
  else if other = base then self
  else if self = other then self
  else RefTarget.conflicted
    (RefTarget.added_ids self ++ RefTarget.added_ids other)
    (RefTarget.added_ids base)

/-- Modelled from the spec: the per-(remote, branch) merge of remote
refs (spec 4.1), code of `jj_lib` not present in the given sources.
Targets merge three-way like local branches; the tracking state is taken
from whichever side has a non-absent target, preferring Tracking. -/
def merge_remote_refs (self base other : RemoteRef) : RemoteRef :=
  if self = base then other
  else if other = base then self
  else if self = other then self
  else
    { target := merge_ref_targets self.target base.target other.target
      state :=
        if self.target = RefTarget.absent then other.state
        else if other.target = RefTarget.absent then self.state
        else if self.state = RemoteRefState.Tracking ∨ other.state = RemoteRefState.Tracking
          then RemoteRefState.Tracking else RemoteRefState.New }

/-- Modelled from the spec: the View Merge Engine
(`MutableRepo::merge`, spec 4.1 and 4.4), code of `jj_lib::repo` not
present in the given sources.  The view `other` is merged into `self`
with `base` as merge base, field by field, as if `other`'s changes were
a concurrent edit: wherever `self` still agrees with `base`, `other`
wins; head membership and workspace pointers are reconciled per element,
named refs by the three-way ref merge; `git_refs` / `git_head` are never
merged from snapshots and stay with the current (`self`) state. -/
def merge_views (self base other : StoreView) : StoreView :=
  { head_ids := fun c =>
      if self.head_ids c = base.head_ids c then other.head_ids c else self.head_ids c
    local_branches := fun n =>
      merge_ref_targets (self.local_branches n) (base.local_branches n) (other.local_branches n)
    tags := fun n =>
      merge_ref_targets (self.tags n) (base.tags n) (other.tags n)
    remote_views := fun r n =>
      merge_remote_refs (self.remote_views r n) (base.remote_views r n) (other.remote_views r n)
    git_refs := self.git_refs
    git_head := self.git_head
    wc_commit_ids := fun w =>
      if self.wc_commit_ids w = base.wc_commit_ids w then other.wc_commit_ids w
      else self.wc_commit_ids w }

/-- Translation of `cmd_op_undo` from `operation.rs`: reject a `bad_op`
with zero parents (root) or more than one parent (merge); otherwise
merge the parent's view into the current head's view with `bad_op`'s
view as base, restore the selected portions, and emit the new operation
with the current head as sole parent. -/
def cmd_op_undo (store : OpStore) (current_head_id bad_id : Nat)
    (what : List UndoWhatToRestore) : Except String OpData :=
  match (store bad_id).parent_ids with
  | [] => Except.error ("Cannot undo repo initialization")
  | [parent_id] =>
      Except.ok
        { parent_ids := [current_head_id]
          view := view_with_desired_portions_restored
            (merge_views (store current_head_id).view (store bad_id).view
              (store parent_id).view)
            (store current_head_id).view what }
  | _ :: _ :: _ => Except.error ("Cannot undo a merge operation")

/-- Translation of `cmd_op_restore` from `operation.rs`: the selected
portions come from the target operation's view directly. -/
def cmd_op_restore (store : OpStore) (current_head_id target_id : Nat)
    (what : List UndoWhatToRestore) : OpData :=
  { parent_ids := [current_head_id]
    view := view_with_desired_portions_restored (store target_id).view
      (store current_head_id).view what }

/-- User error with an optional hint (`command_error::user_error` /
`user_error_with_hint`). -/
structure CmdError where
  msg : String
  hint : Option String
deriving DecidableEq, Repr

/-- Statistics returned by `op_walk::reparent_range`. -/
structure ReparentStats where
  new_head_ids : List Nat
  unreachable_count : Nat
  rewritten_count : Nat
deriving DecidableEq, Repr

/-- Fuelled ancestor traversal of the operation DAG: collect every
operation reachable from the frontier through parent edges. -/
def ancestors_go (store : OpStore) : Nat → List Nat → List Nat → List Nat
  | 0, visited, _ => visited
  | fuel + 1, visited, frontier =>
    match frontier with
    | [] => visited
    | x :: rest =>
      if visited.contains x then ancestors_go store fuel visited rest
      else ancestors_go store fuel (x :: visited) ((store x).parent_ids ++ rest)

/-- Operations reachable from `starts` (inclusive), with `fuel` bounding
the traversal. -/
def ancestors (store : OpStore) (fuel : Nat) (starts : List Nat) : List Nat :=
  ancestors_go store fuel [] starts

/-- Modelled from the spec: `op_walk::reparent_range` (spec 4.2), code
of `jj_lib::op_walk` not present in the given sources.  The abandoned
set is everything reachable from `heads_to_abandon` but not from
`new_root`; descendants of that set reachable from `current_heads` are
rewritten (content hashing of the replacement operations is abstracted
by `fresh_id`); `new_head_ids` are the replacements of `current_heads`,
or `current_heads` unchanged where nothing was rewritten. -/
def reparent_range (store : OpStore) (fuel : Nat) (fresh_id : Nat → Nat)
    (heads_to_abandon current_heads : List Nat) (new_root : Nat) : ReparentStats :=
  let root_ancestors := ancestors store fuel [new_root]
  let unreachable :=
    (ancestors store fuel heads_to_abandon).filter
      (fun x => !(root_ancestors.contains x))
  let descendants :=
    (ancestors store fuel current_heads).filter
      (fun x => !(unreachable.contains x)
        && (ancestors store fuel [x]).any (fun a => unreachable.contains a))
  { new_head_ids :=
      current_heads.map (fun h => if descendants.contains h then fresh_id h else h)
    unreachable_count := unreachable.length
    rewritten_count := descendants.length }

/-- Outcome of `cmd_op_abandon` on a bare (non-range) target.  `failure`
is a reported user error (no head-set update); `panicked` models the
`try_into().unwrap()` on `new_head_ids` failing; the two `ok` outcomes
mirror the "Nothing changed." early return and the head-set update. -/
inductive AbandonResult where
  | failure (e : CmdError) : AbandonResult
  | panicked : AbandonResult
  | nothingChanged : AbandonResult
  | updated (new_head_id : Nat) (unreachable_count rewritten_count : Nat) : AbandonResult
deriving DecidableEq, Repr

/-- The head-set update performed by an abandon outcome, if any. -/
def AbandonResult.head_set_update : AbandonResult → Option Nat
  | AbandonResult.updated h _ _ => some h
  | _ => none

/-- Translation of the bare-target path of `cmd_op_abandon` from
`operation.rs`: resolve the target's parents (root and merge operations
are user errors), reject the current head with a hint, then reparent the
range onto the single parent, unwrap the singleton new head, and either
report "Nothing changed." or update the head set. -/
def cmd_op_abandon_bare (store : OpStore) (fuel : Nat) (fresh_id : Nat → Nat)
    (op_id current_head_id : Nat) : AbandonResult :=
  match (store op_id).parent_ids with
  | [] => AbandonResult.failure ⟨("Cannot abandon the root operation"), none⟩
  | [parent_id] =>
    if op_id = current_head_id then
      AbandonResult.failure
        ⟨("Cannot abandon the current operation"),
          some ("Run `jj undo` to revert the current operation, then use `jj op abandon`")⟩
    else
      let stats := reparent_range store fuel fresh_id [op_id] [current_head_id] parent_id
      match stats.new_head_ids with
      | [new_head_id] =>
        if new_head_id = current_head_id then AbandonResult.nothingChanged
        else AbandonResult.updated new_head_id stats.unreachable_count stats.rewritten_count
      | _ => AbandonResult.panicked
  | _ :: _ :: _ => AbandonResult.failure ⟨("Cannot abandon a merge operation"), none⟩

/-- Translation of `merge_operations` from `operation.rs`, with the
transaction machinery abstracted: `load_at` starts a transaction at the
base operation, `merge_op` folds one more operation in,
`rebase_descendants` is the descendant-rebase pass run after each merge,
and `write` commits the transaction to a merged operation.  No
operations yields none; a single operation is returned unchanged;
otherwise the remaining operations are folded pairwise into the running
transaction in encounter order, rebasing after each step. -/
def merge_operations {σ α : Type} (load_at : α → σ) (merge_op : σ → α → σ)
    (rebase_descendants : σ → σ) (write : σ → α) (operations : List α) : Option α :=
  match operations with
  | [] => none
  | base_op :: rest =>
    if rest.isEmpty then some base_op
    else some (write (rest.foldl (fun tx other_op => rebase_descendants (merge_op tx other_op)) (load_at base_op)))

/-- Commit record, with the fields the change-diff display uses. -/
structure Commit where
  id : Nat
  change_id : Nat
  parent_ids : List Nat
deriving DecidableEq, Repr

/-- A change's diff entry (`ModifiedChange` in `operation.rs`). -/
structure ModifiedChange where
  added_commits : List Commit
  removed_commits : List Commit
deriving DecidableEq, Repr

/-- Deduplication keeping the first occurrence of each element, the
behaviour of `itertools`' `unique()`. -/
def unique_keep_first_go {α : Type} [DecidableEq α] (seen : List α) : List α → List α
  | [] => []
  | x :: xs =>
    if seen.contains x then unique_keep_first_go seen xs
    else x :: unique_keep_first_go (x :: seen) xs

/-- Deduplication keeping first occurrences (`itertools::unique`). -/
def unique_keep_first {α : Type} [DecidableEq α] (l : List α) : List α :=
  unique_keep_first_go [] l

/-- Translation of `get_parent_changes` from `operation.rs`: the change
ids of all parents of the added commits (of the removed commits when no
commit was added), looked up in the commit-to-change index, unknown
parents dropped, deduplicated keeping encounter order. -/
def get_parent_changes (modified_change : ModifiedChange)
    (commit_id_change_id_map : Nat → Option Nat) : List Nat :=
  if !modified_change.added_commits.isEmpty then
    unique_keep_first
      (((modified_change.added_commits.flatMap (fun c => c.parent_ids)).filterMap
        commit_id_change_id_map))
  else
    unique_keep_first
      (((modified_change.removed_commits.flatMap (fun c => c.parent_ids)).filterMap
        commit_id_change_id_map))

/-- Translation of the `commit_id_change_id_map` construction in
`show_op_diff` (`operation.rs`): index every added and removed commit of
every modified change by its commit id, later entries overriding. -/
def commit_id_change_id_map (changes : List (Nat × ModifiedChange)) :
    Nat → Option Nat :=
  changes.foldl
    (fun m p =>
      ((p.2.added_commits.map (fun c => (c.id, p.1))) ++
        (p.2.removed_commits.map (fun c => (c.id, p.1)))).foldl
        (fun m q => fun x => if x = q.1 then some q.2 else m x) m)
    (fun _ => none)

/-- The parent-derivation rule exactly as claim C4 words it: only the
first-listed parent commit id of each added commit (or of each removed
commit when none was added) is looked up in the index. -/
def get_parent_changes_first_parent (modified_change : ModifiedChange)
    (commit_id_change_id_map : Nat → Option Nat) : List Nat :=
  if !modified_change.added_commits.isEmpty then
    unique_keep_first
      ((modified_change.added_commits.filterMap (fun c => c.parent_ids.head?)).filterMap
        commit_id_change_id_map)
  else
    unique_keep_first
      ((modified_change.removed_commits.filterMap (fun c => c.parent_ids.head?)).filterMap
        commit_id_change_id_map)

/-- The amended parent-derivation rule, following the corrected claim's
words: for each added commit (or removed commit when none was added),
every listed parent commit id is looked up in the index, parents outside
the index are silently dropped, and duplicates are removed keeping the
first occurrence. -/
def get_parent_changes_amended_rule (modified_change : ModifiedChange)
    (commit_id_change_id_map : Nat → Option Nat) : List Nat :=
  if !modified_change.added_commits.isEmpty then
    unique_keep_first
      (modified_change.added_commits.flatMap
        (fun c => c.parent_ids.filterMap commit_id_change_id_map))
  else
    unique_keep_first
      (modified_change.removed_commits.flatMap
        (fun c => c.parent_ids.filterMap commit_id_change_id_map))

/-- Reserved remote name for the local colocated Git repository
(`jj_lib::git::REMOTE_NAME_FOR_LOCAL_GIT_REPO`, not in the given
sources). -/
def REMOTE_NAME_FOR_LOCAL_GIT_REPO : String := "git"

/-- The absent remote ref (`RemoteRef::absent`). -/
def RemoteRef.absent : RemoteRef := ⟨RefTarget.absent, RemoteRefState.New⟩

/-- Remote ref found under a (branch, remote) name pair, absent when the
name is unbound. -/
def remote_ref_at (refs : List ((String × String) × RemoteRef))
    (k : String × String) : RemoteRef :=
  ((refs.find? (fun p => p.1 = k)).map (fun p => p.2)).getD RemoteRef.absent

/-- Modelled from the spec: `jj_lib::refs::diff_named_remote_refs`
(spec 4.5), code not present in the given sources.  Remote refs are
diffed per (branch, remote) name by simple comparison, reporting the
pairs whose two sides differ. -/
def diff_named_remote_refs (refs1 refs2 : List ((String × String) × RemoteRef)) :
    List ((String × String) × (RemoteRef × RemoteRef)) :=
  (unique_keep_first ((refs1.map (fun p => p.1)) ++ (refs2.map (fun p => p.1)))).filterMap
    (fun k =>
      let r1 := remote_ref_at refs1 k
      let r2 := remote_ref_at refs2 k
      if r1 = r2 then none else some (k, (r1, r2)))

/-- Translation of the changed-remote-branches computation of
`show_op_diff` (`operation.rs`): diff the two views' remote branches and
skip entries of the remote reserved for the local Git repository. -/
def changed_remote_branches (refs1 refs2 : List ((String × String) × RemoteRef)) :
    List ((String × String) × (RemoteRef × RemoteRef)) :=
  (diff_named_remote_refs refs1 refs2).filter
    (fun e => e.1.2 ≠ REMOTE_NAME_FOR_LOCAL_GIT_REPO)

/-- Prepend a character to the first piece of a split (used to build up
newline splits). -/
def cons_head (c : Char) : List (List Char) → List (List Char)
  | [] => [[c]]
  | l :: ls => (c :: l) :: ls

/-- Split a string at every newline character; the final piece is the
text after the last newline (possibly empty), so the result is always
nonempty. -/
def split_newlines : List Char → List (List Char)
  | [] => [[]]
  | c :: rest =>
    if c = '\n' then [] :: split_newlines rest
    else cons_head c (split_newlines rest)

/-- Strip one trailing carriage return (the `\r` of a `\r\n` line
terminator). -/
def rstrip_cr (l : List Char) : List Char :=
  if l.getLast? = some '\r' then l.dropLast else l

/-- Rust's `str::lines`: split at `\n`, drop the empty piece a trailing
newline leaves behind, and strip the `\r` of `\r\n` terminators from
every newline-terminated piece (the last piece, if unterminated, keeps a
trailing `\r`). -/
def str_lines (s : List Char) : List (List Char) :=
  let ps := split_newlines s
  if ps.getLast? = some [] then ps.dropLast.map rstrip_cr
  else ps.dropLast.map rstrip_cr ++ ps.drop (ps.length - 1)

/-- Join pieces with single newlines (itertools `join("\n")`). -/
def join_newlines : List (List Char) → List Char
  | [] => []
  | [l] => l
  | l :: ls => l ++ '\n' :: join_newlines ls

/-- Remove trailing newline characters (the right half of Rust's
`trim_matches('\n')`). -/
def rdrop_newlines : List Char → List Char
  | [] => []
  | c :: rest =>
    let r := rdrop_newlines rest
    if r = [] ∧ c = '\n' then [] else c :: r

/-- Modelled from the spec: `text_util::complete_newline`, code of the
CLI crate not present in the given sources; claim C9's sentence calls it
"a final newline that is preserved".  A nonempty text not ending in a
newline gets one appended. -/
def complete_newline (text : List Char) : List Char :=
  if text = [] then text
  else if text.getLast? = some '\n' then text
  else text ++ ['\n']

/-- The "JJ: " line prefix removed by description cleanup. -/
def JJ_line_tag : List Char := ['J', 'J', ':', ' ']

/-- Translation of `cleanup_description` from `description_util.rs`:
drop every line starting with "JJ: ", join the remaining lines with
newlines, trim leading and trailing newline characters, and complete the
final newline. -/
def cleanup_description (description : List Char) : List Char :=
  let filtered :=
    (str_lines description).filter (fun l => !(List.isPrefixOf JJ_line_tag l))
  complete_newline
    (rdrop_newlines ((join_newlines filtered).dropWhile (fun c => c == '\n')))

/-- A plain empty view, used as concrete input for witnesses. -/
def const_view : StoreView :=
  { head_ids := fun _ => false
    local_branches := fun _ => RefTarget.absent
    tags := fun _ => RefTarget.absent
    remote_views := fun _ _ => RemoteRef.absent
    git_refs := fun _ => RefTarget.absent
    git_head := RefTarget.absent
    wc_commit_ids := fun _ => none }

/-- A store where every operation has the single parent 7, used as
concrete input for witnesses. -/
def const_store : OpStore := fun _ => ⟨[7], const_view⟩

/-- A store holding a root operation (id 0), a merge operation (id 1)
and single-parent operations elsewhere, used as witness input. -/
def mixed_store : OpStore := fun i =>
  if i = 0 then ⟨[], const_view⟩
  else if i = 1 then ⟨[0, 0], const_view⟩
  else ⟨[0], const_view⟩

/-- Concrete modified change for claim C4: one added merge commit whose
two parents both appear in the diff. -/
def mc_cex : ModifiedChange := ⟨[⟨10, 100, [11, 12]⟩], []⟩

/-- Concrete change diff for claim C4. -/
def changes_cex : List (Nat × ModifiedChange) :=
  [(100, mc_cex), (101, ⟨[⟨11, 101, []⟩], []⟩), (102, ⟨[⟨12, 102, []⟩], []⟩)]

/-- Concrete description for claim C9: a line ending in a carriage
return followed by a newline-terminated line. -/
def description_cex : List Char := ['a', '\r', '\r', '\n', 'b']

/-- Concrete description for the witness of the amended claim C9: a
"JJ: " line, blank lines and ordinary lines, no carriage returns. -/
def description_wit : List Char :=
  ['J', 'J', ':', ' ', 'x', '\n', 'a', '\n', '\n', 'b']

/-- Concrete remote-branch lists for claim C10: both the `origin` and
the reserved local-git remote moved the same branch. -/
def remote_refs_from_cex : List ((String × String) × RemoteRef) :=
  [((("main"), ("origin")), ⟨RefTarget.normal 1, RemoteRefState.Tracking⟩),
   ((("main"), ("git")), ⟨RefTarget.normal 1, RemoteRefState.Tracking⟩)]

/-- Concrete remote-branch lists for claim C10, second view. -/
def remote_refs_to_cex : List ((String × String) × RemoteRef) :=
  [((("main"), ("origin")), ⟨RefTarget.normal 2, RemoteRefState.Tracking⟩),
   ((("main"), ("git")), ⟨RefTarget.normal 2, RemoteRefState.Tracking⟩)]

/-- The surviving diff entry of the concrete C10 views: the moved
`origin` branch. -/
def changed_entry_cex : (String × String) × (RemoteRef × RemoteRef) :=
  ((("main"), ("origin")),
    (⟨RefTarget.normal 1, RemoteRefState.Tracking⟩,
      ⟨RefTarget.normal 2, RemoteRefState.Tracking⟩))

/-- Remove trailing empty pieces from a piece list (the piece-level
mirror of trimming trailing newlines from the joined string). -/
def rdrop_empty : List (List Char) → List (List Char)
  | [] => []
  | x :: rest =>
    let r := rdrop_empty rest
    if r = [] ∧ x = [] then [] else x :: r

/-- Extend a store with one newly written operation: the transaction
commit of `tx.finish`, which makes the new operation the head. -/
def store_insert (store : OpStore) (i : Nat) (op : OpData) : OpStore :=
  fun j => if j = i then op else store j

/-! ## Theorems -/

/-- Helper: reading back the operation just written. -/
theorem store_insert_same (store : OpStore) (i : Nat) (op : OpData) :
    store_insert store i op i = op := by
  simp [store_insert]

/-- Helper: other operations are untouched by a write. -/
theorem store_insert_other (store : OpStore) (i : Nat) (op : OpData)
    (j : Nat) (h : j ≠ i) : store_insert store i op j = store j := by
  simp [store_insert, h]

/-- Helper: the structural equation of `cmd_op_undo` on a single-parent
target. -/
theorem cmd_op_undo_eq (store : OpStore) (head bad parent : Nat)
    (what : List UndoWhatToRestore) (h : (store bad).parent_ids = [parent]) :
    cmd_op_undo store head bad what = Except.ok
      { parent_ids := [head]
        view := view_with_desired_portions_restored
          (merge_views (store head).view (store bad).view (store parent).view)
          (store head).view what } := by
  unfold cmd_op_undo; rw [h]

/-- Helper: a three-way ref merge whose first side equals the base
returns the other side. -/
theorem merge_ref_targets_self_eq_base (b o : RefTarget) :
    merge_ref_targets b b o = o := by
  simp [merge_ref_targets]

/-- Helper: a three-way remote-ref merge whose first side equals the
base returns the other side. -/
theorem merge_remote_refs_self_eq_base (b o : RemoteRef) :
    merge_remote_refs b b o = o := by
  simp [merge_remote_refs]

/-- Helper: merging into a view that equals the merge base replaces
every merged portion by the other side; only the unmerged `git_refs` /
`git_head` stay with the current side. -/
theorem merge_views_self_eq_base (v w : StoreView) :
    merge_views v v w =
      { w with git_refs := v.git_refs, git_head := v.git_head } := by
  unfold merge_views
  congr 1
  · funext c; simp
  · funext n; exact merge_ref_targets_self_eq_base _ _
  · funext n; exact merge_ref_targets_self_eq_base _ _
  · funext r n; exact merge_remote_refs_self_eq_base _ _
  · funext w2; simp

/-- Helper: undoing the undo operation recomputes the pre-undo view
exactly: restore-with-default-portions after merging with the first
undo's view as both side and base yields the original current view. -/
theorem undo_view_roundtrip (cur badv parv : StoreView) :
    view_with_desired_portions_restored
      (merge_views
        (view_with_desired_portions_restored (merge_views cur badv parv) cur
          DEFAULT_UNDO_WHAT)
        (view_with_desired_portions_restored (merge_views cur badv parv) cur
          DEFAULT_UNDO_WHAT)
        cur)
      (view_with_desired_portions_restored (merge_views cur badv parv) cur
        DEFAULT_UNDO_WHAT)
      DEFAULT_UNDO_WHAT = cur := by
  rw [merge_views_self_eq_base]
  unfold view_with_desired_portions_restored
  simp [DEFAULT_UNDO_WHAT]

/-- C2: undoing a non-root, non-merge operation and then undoing the
operation the first undo created restores the pre-undo view bit for
bit: the second undo produces an operation whose view equals the view at
the head before the first undo. -/
theorem undo_of_undo_restores_view (store : OpStore)
    (head bad parent new_id : Nat)
    (h1 : (store bad).parent_ids = [parent]) (h2 : new_id ≠ head) :
    ∃ undo_op,
      cmd_op_undo store head bad DEFAULT_UNDO_WHAT = Except.ok undo_op ∧
      cmd_op_undo (store_insert store new_id undo_op) new_id new_id
          DEFAULT_UNDO_WHAT =
        Except.ok { parent_ids := [new_id], view := (store head).view } := by
  refine ⟨_, cmd_op_undo_eq store head bad parent DEFAULT_UNDO_WHAT h1, ?_⟩
  have hp2 : ((store_insert store new_id
      { parent_ids := [head]
        view := view_with_desired_portions_restored
          (merge_views (store head).view (store bad).view (store parent).view)
          (store head).view DEFAULT_UNDO_WHAT }) new_id).parent_ids = [head] := by
    rw [store_insert_same]
  rw [cmd_op_undo_eq _ new_id new_id head DEFAULT_UNDO_WHAT hp2]
  rw [store_insert_same, store_insert_other store new_id _ head (Ne.symm h2)]
  rw [undo_view_roundtrip (store head).view (store bad).view (store parent).view]

/-- C2 witness: the round trip at a concrete store whose operations all
have the single parent 7. -/
theorem undo_of_undo_restores_view_witness :
    (const_store 3).parent_ids = [7] ∧ (9 : Nat) ≠ 2 ∧
    ∃ undo_op,
      cmd_op_undo const_store 2 3 DEFAULT_UNDO_WHAT = Except.ok undo_op ∧
      cmd_op_undo (store_insert const_store 9 undo_op) 9 9 DEFAULT_UNDO_WHAT =
        Except.ok { parent_ids := [9], view := (const_store 2).view } :=
  ⟨rfl, by decide, undo_of_undo_restores_view const_store 2 3 7 9 rfl (by decide)⟩

/-- C6: for every choice of the `what` selection, the view produced by
`view_with_desired_portions_restored` — and hence by `jj op restore` and
`jj op undo` — takes `git_refs` and `git_head` from the current view,
never from the view being restored; the selection does not affect these
two fields. -/
theorem git_fields_always_from_current_view (store : OpStore)
    (restored current : StoreView) (head target bad : Nat)
    (what : List UndoWhatToRestore) :
    ((view_with_desired_portions_restored restored current what).git_refs =
        current.git_refs
      ∧ (view_with_desired_portions_restored restored current what).git_head =
        current.git_head)
    ∧ ((cmd_op_restore store head target what).view.git_refs =
        (store head).view.git_refs
      ∧ (cmd_op_restore store head target what).view.git_head =
        (store head).view.git_head)
    ∧ (∀ op, cmd_op_undo store head bad what = Except.ok op →
        op.view.git_refs = (store head).view.git_refs
        ∧ op.view.git_head = (store head).view.git_head) := by
  refine ⟨⟨rfl, rfl⟩, ⟨rfl, rfl⟩, ?_⟩
  intro op h
  unfold cmd_op_undo at h
  rcases hp : (store bad).parent_ids with _ | ⟨p, rest⟩
  · rw [hp] at h; exact absurd h (by simp)
  · rcases rest with _ | ⟨q, rest2⟩
    · rw [hp] at h
      injection h with h
      subst h
      exact ⟨rfl, rfl⟩
    · rw [hp] at h; exact absurd h (by simp)

/-- C6 witness: at a concrete store, the view written by a concrete
undo keeps the current view's `git_refs` and `git_head`. -/
theorem git_fields_always_from_current_view_witness :
    cmd_op_undo const_store 2 3 DEFAULT_UNDO_WHAT = Except.ok
      { parent_ids := [2]
        view := view_with_desired_portions_restored
          (merge_views const_view const_view const_view) const_view
          DEFAULT_UNDO_WHAT }
    ∧ (view_with_desired_portions_restored
        (merge_views const_view const_view const_view) const_view
        DEFAULT_UNDO_WHAT).git_refs = const_view.git_refs := by
  refine ⟨rfl, ?_⟩
  exact ((git_fields_always_from_current_view const_store const_view const_view
    2 4 3 DEFAULT_UNDO_WHAT).2.2 _ rfl).1

/-- C7: `cmd_op_undo` requires the target to have exactly one parent:
with zero parents it fails with "Cannot undo repo initialization", with
two or more parents it fails with "Cannot undo a merge operation"; in
both cases only an error is produced, no operation. -/
theorem cmd_op_undo_parent_arity_errors (store : OpStore) (head bad : Nat)
    (what : List UndoWhatToRestore) :
    ((store bad).parent_ids = [] →
      cmd_op_undo store head bad what =
        Except.error ("Cannot undo repo initialization"))
    ∧ (2 ≤ (store bad).parent_ids.length →
      cmd_op_undo store head bad what =
        Except.error ("Cannot undo a merge operation")) := by
  constructor
  · intro h; unfold cmd_op_undo; rw [h]
  · intro h
    unfold cmd_op_undo
    rcases hp : (store bad).parent_ids with _ | ⟨p, rest⟩
    · rw [hp] at h; simp at h
    · rcases rest with _ | ⟨q, rest2⟩
      · rw [hp] at h; simp at h
      · rfl

/-- C7 witness: the concrete root operation and a concrete merge
operation are both rejected with the stated messages. -/
theorem cmd_op_undo_parent_arity_errors_witness :
    ((mixed_store 0).parent_ids = [] ∧
      cmd_op_undo mixed_store 5 0 [] =
        Except.error ("Cannot undo repo initialization"))
    ∧ (2 ≤ (mixed_store 1).parent_ids.length ∧
      cmd_op_undo mixed_store 5 1 [] =
        Except.error ("Cannot undo a merge operation")) :=
  ⟨⟨rfl, (cmd_op_undo_parent_arity_errors mixed_store 5 0 []).1 rfl⟩,
    ⟨by decide, (cmd_op_undo_parent_arity_errors mixed_store 5 1 []).2 (by decide)⟩⟩

/-- C1: for a target with exactly one parent, `cmd_op_undo` produces the
operation whose view is the current view merged with the parent's view
(the view at the target as merge base) via the view-merge engine,
restricted to the portions selected by `what`. -/
theorem cmd_op_undo_merges_parent_view (store : OpStore)
    (head bad parent : Nat) (what : List UndoWhatToRestore)
    (h : (store bad).parent_ids = [parent]) :
    cmd_op_undo store head bad what = Except.ok
      { parent_ids := [head]
        view := view_with_desired_portions_restored
          (merge_views (store head).view (store bad).view (store parent).view)
          (store head).view what } := by
  unfold cmd_op_undo; rw [h]

/-- C1 witness: the structural equation instantiated at a concrete
store whose target operation has the single parent 7. -/
theorem cmd_op_undo_merges_parent_view_witness :
    (const_store 3).parent_ids = [7] ∧
    cmd_op_undo const_store 2 3 DEFAULT_UNDO_WHAT = Except.ok
      { parent_ids := [2]
        view := view_with_desired_portions_restored
          (merge_views (const_store 2).view (const_store 3).view
            (const_store 7).view)
          (const_store 2).view DEFAULT_UNDO_WHAT } :=
  ⟨rfl, cmd_op_undo_merges_parent_view const_store 2 3 7 DEFAULT_UNDO_WHAT rfl⟩

/-- Helper: reparenting with a single current head produces a singleton
new-head list by construction. -/
theorem reparent_range_single (store : OpStore) (fuel : Nat)
    (fresh : Nat → Nat) (hs : List Nat) (root h : Nat) :
    ∃ x, (reparent_range store fuel fresh hs [h] root).new_head_ids = [x] :=
  ⟨_, rfl⟩

/-- C3: on a bare (non-range) target, `cmd_op_abandon` reports a user
error, with no head-set update, exactly when the target is the root
operation, a merge operation, or the current head operation (the latter
with a hint to run undo first). -/
theorem cmd_op_abandon_bare_error_cases (store : OpStore) (fuel : Nat)
    (fresh : Nat → Nat) (op_id head : Nat) :
    ((store op_id).parent_ids = [] →
      cmd_op_abandon_bare store fuel fresh op_id head =
        AbandonResult.failure ⟨("Cannot abandon the root operation"), none⟩)
    ∧ (2 ≤ (store op_id).parent_ids.length →
      cmd_op_abandon_bare store fuel fresh op_id head =
        AbandonResult.failure ⟨("Cannot abandon a merge operation"), none⟩)
    ∧ ((store op_id).parent_ids.length = 1 → op_id = head →
      cmd_op_abandon_bare store fuel fresh op_id head =
        AbandonResult.failure ⟨("Cannot abandon the current operation"),
          some ("Run `jj undo` to revert the current operation, then use `jj op abandon`")⟩)
    ∧ (∀ e, cmd_op_abandon_bare store fuel fresh op_id head =
          AbandonResult.failure e →
        ((store op_id).parent_ids = [] ∨ 2 ≤ (store op_id).parent_ids.length
          ∨ op_id = head)
        ∧ (AbandonResult.failure e).head_set_update = none) := by
  refine ⟨?_, ?_, ?_, ?_⟩
  · intro h; unfold cmd_op_abandon_bare; rw [h]
  · intro h
    unfold cmd_op_abandon_bare
    rcases hp : (store op_id).parent_ids with _ | ⟨p, _ | ⟨q, r⟩⟩
    · rw [hp] at h; simp at h
    · rw [hp] at h; simp at h
    · rfl
  · intro hlen heq
    rcases hp : (store op_id).parent_ids with _ | ⟨p, _ | ⟨q, r⟩⟩
    · rw [hp] at hlen; simp at hlen
    · unfold cmd_op_abandon_bare; rw [hp]; simp [heq]
    · rw [hp] at hlen; simp at hlen
  · intro e he
    refine ⟨?_, rfl⟩
    by_contra hcon
    push_neg at hcon
    obtain ⟨hroot, hmerge, hne⟩ := hcon
    unfold cmd_op_abandon_bare at he
    rcases hp : (store op_id).parent_ids with _ | ⟨p, _ | ⟨q, r⟩⟩
    · exact hroot hp
    · rw [hp] at he
      simp only [hne, if_false, reduceIte] at he
      obtain ⟨x, hx⟩ := reparent_range_single store fuel fresh [op_id] p head
      rw [hx] at he
      split at he <;> first
        | simp at he
        | (split at he <;> simp at he)
    · rw [hp] at hmerge
      simp [List.length_cons] at hmerge
      omega

/-- C3 witness: the three concrete error cases at a concrete store, and
a concrete failure outcome performing no head-set update. -/
theorem cmd_op_abandon_bare_error_cases_witness :
    ((mixed_store 0).parent_ids = [] ∧
      cmd_op_abandon_bare mixed_store 5 id 0 9 =
        AbandonResult.failure ⟨("Cannot abandon the root operation"), none⟩)
    ∧ (2 ≤ (mixed_store 1).parent_ids.length ∧
      cmd_op_abandon_bare mixed_store 5 id 1 9 =
        AbandonResult.failure ⟨("Cannot abandon a merge operation"), none⟩)
    ∧ ((mixed_store 4).parent_ids.length = 1 ∧
      cmd_op_abandon_bare mixed_store 5 id 4 4 =
        AbandonResult.failure ⟨("Cannot abandon the current operation"),
          some ("Run `jj undo` to revert the current operation, then use `jj op abandon`")⟩) :=
  ⟨⟨rfl, (cmd_op_abandon_bare_error_cases mixed_store 5 id 0 9).1 rfl⟩,
    ⟨by decide, (cmd_op_abandon_bare_error_cases mixed_store 5 id 1 9).2.1 (by decide)⟩,
    ⟨by decide, (cmd_op_abandon_bare_error_cases mixed_store 5 id 4 4).2.2.1 (by decide) rfl⟩⟩

/-- C5: `reparent_range` invoked with a single current head (as
`cmd_op_abandon` does) returns exactly one new head id, and the
conversion of `new_head_ids` into a one-element array in
`cmd_op_abandon` never panics. -/
theorem reparent_range_single_current_head (store : OpStore) (fuel : Nat)
    (fresh : Nat → Nat) (heads_to_abandon : List Nat) (new_root head : Nat) :
    (reparent_range store fuel fresh heads_to_abandon [head]
        new_root).new_head_ids.length = 1
    ∧ ∀ op_id, cmd_op_abandon_bare store fuel fresh op_id head ≠
        AbandonResult.panicked := by
  constructor
  · rfl
  · intro op_id hcon
    unfold cmd_op_abandon_bare at hcon
    rcases hp : (store op_id).parent_ids with _ | ⟨p, _ | ⟨q, r⟩⟩
    · rw [hp] at hcon; simp at hcon
    · rw [hp] at hcon
      by_cases heq : op_id = head
      · simp [heq] at hcon
      · simp only [heq, if_false, reduceIte] at hcon
        obtain ⟨x, hx⟩ := reparent_range_single store fuel fresh [op_id] p head
        rw [hx] at hcon
        split at hcon <;> first
          | simp at hcon
          | (split at hcon <;> simp at hcon)
    · rw [hp] at hcon; simp at hcon

/-- C5 witness: a concrete invocation returns a singleton, and a
concrete abandon does not panic. -/
theorem reparent_range_single_current_head_witness :
    (reparent_range const_store 3 id [1] [2] 0).new_head_ids.length = 1
    ∧ cmd_op_abandon_bare const_store 3 id 4 2 ≠ AbandonResult.panicked :=
  ⟨(reparent_range_single_current_head const_store 3 id [1] 0 2).1,
    (reparent_range_single_current_head const_store 3 id [1] 0 2).2 4⟩

/-- C8: `merge_operations` yields no operation for an empty input,
returns a single operation unchanged, and for two or more operations
takes the first as the base and folds each subsequent operation pairwise
into the running transaction in encounter order, running the
descendant-rebase pass after each merge step before the next operand. -/
theorem merge_operations_pairwise_fold {σ α : Type} (load_at : α → σ)
    (merge_op : σ → α → σ) (rebase_descendants : σ → σ) (write : σ → α) :
    (merge_operations load_at merge_op rebase_descendants write ([] : List α) = none)
    ∧ (∀ op : α, merge_operations load_at merge_op rebase_descendants write [op] = some op)
    ∧ (∀ (base : α) (rest : List α), rest ≠ [] →
        merge_operations load_at merge_op rebase_descendants write (base :: rest) =
          some (write (rest.foldl
            (fun tx other => rebase_descendants (merge_op tx other)) (load_at base))))
    ∧ (∀ (tx : σ) (other : α) (rest : List α),
        (other :: rest).foldl (fun tx o => rebase_descendants (merge_op tx o)) tx =
          rest.foldl (fun tx o => rebase_descendants (merge_op tx o))
            (rebase_descendants (merge_op tx other))) := by
  refine ⟨rfl, fun op => rfl, ?_, fun tx other rest => rfl⟩
  intro base rest hne
  rcases rest with _ | ⟨r, rs⟩
  · exact absurd rfl hne
  · rfl

/-- C8 witness: the fold equation at a concrete three-operation input
over a concrete numeric transaction model. -/
theorem merge_operations_pairwise_fold_witness :
    ([1, 2] : List Nat) ≠ [] ∧
    merge_operations (fun n => n) (fun tx o => tx + o) (fun tx => tx + 1)
      (fun tx => tx) (0 :: [1, 2]) =
      some (([1, 2] : List Nat).foldl (fun tx o => (tx + o) + 1) 0) :=
  ⟨by decide,
    (merge_operations_pairwise_fold (fun n : Nat => n) (fun tx o => tx + o)
      (fun tx => tx + 1) (fun tx => tx)).2.2.1 0 [1, 2] (by decide)⟩

/-- Helper: `filterMap` distributes over `flatMap`. -/
theorem filterMap_flatMap_comm {α β γ : Type} (l : List α) (f : α → List β)
    (g : β → Option γ) :
    (l.flatMap f).filterMap g = l.flatMap (fun x => (f x).filterMap g) := by
  induction l with
  | nil => rfl
  | cons a l ih => simp [List.flatMap_cons, List.filterMap_append, ih]

/-- C4 counterexample: an added merge commit has both parents in the
diff's index; `get_parent_changes` returns both parents' change ids,
not only the first-listed parent's. -/
theorem get_parent_changes_first_parent_cex :
    get_parent_changes mc_cex (commit_id_change_id_map changes_cex) ≠
      get_parent_changes_first_parent mc_cex (commit_id_change_id_map changes_cex)
    ∧ get_parent_changes mc_cex (commit_id_change_id_map changes_cex) = [101, 102]
    ∧ get_parent_changes_first_parent mc_cex (commit_id_change_id_map changes_cex) =
      [101] := by decide

/-- C4 amended: for every modified change of the diff, the derived
parent change ids are those of all listed parent commit ids of its added
commits (of its removed commits when none was added), looked up in the
commit-to-change index built from the diff's own entries, parents
outside the index silently dropped and duplicates removed keeping the
first occurrence. -/
theorem get_parent_changes_all_parents (changes : List (Nat × ModifiedChange))
    (cid : Nat) (mc : ModifiedChange) (hmem : (cid, mc) ∈ changes) :
    get_parent_changes mc (commit_id_change_id_map changes) =
      get_parent_changes_amended_rule mc (commit_id_change_id_map changes) := by
  unfold get_parent_changes get_parent_changes_amended_rule
  split_ifs <;> rw [filterMap_flatMap_comm]

/-- C4 witness: the amended rule at the concrete diff of the
counterexample. -/
theorem get_parent_changes_all_parents_witness :
    (100, mc_cex) ∈ changes_cex ∧
    get_parent_changes mc_cex (commit_id_change_id_map changes_cex) =
      get_parent_changes_amended_rule mc_cex (commit_id_change_id_map changes_cex) :=
  ⟨by decide, get_parent_changes_all_parents changes_cex 100 mc_cex (by decide)⟩

/-- C10: the changed-remote-branches section never contains an entry of
the remote reserved for the local colocated Git repository, whatever the
two views' remote branches are. -/
theorem changed_remote_branches_skip_local_git
    (refs1 refs2 : List ((String × String) × RemoteRef)) :
    ∀ e ∈ changed_remote_branches refs1 refs2,
      e.1.2 ≠ REMOTE_NAME_FOR_LOCAL_GIT_REPO := by
  intro e he
  unfold changed_remote_branches at he
  exact of_decide_eq_true (List.mem_filter.mp he).2

/-- C10 witness: at concrete views where both `origin` and the reserved
`git` remote moved a branch, a surviving entry is not of the reserved
remote (and by the theorem no entry of the reserved remote survives). -/
theorem changed_remote_branches_skip_local_git_witness :
    changed_entry_cex ∈
      changed_remote_branches remote_refs_from_cex remote_refs_to_cex
    ∧ changed_entry_cex.1.2 ≠ REMOTE_NAME_FOR_LOCAL_GIT_REPO :=
  ⟨by decide,
    changed_remote_branches_skip_local_git remote_refs_from_cex remote_refs_to_cex
      changed_entry_cex (by decide)⟩

/-- Helper: unfolding of `cleanup_description`. -/
theorem cleanup_description_def (s : List Char) :
    cleanup_description s =
      complete_newline
        (rdrop_newlines
          ((join_newlines
            ((str_lines s).filter (fun l => !(List.isPrefixOf JJ_line_tag l)))).dropWhile
          (fun c => c == '\n'))) := rfl

/-- Helper: unfolding of `str_lines`. -/
theorem str_lines_def (s : List Char) :
    str_lines s =
      if (split_newlines s).getLast? = some [] then
        ((split_newlines s).dropLast).map rstrip_cr
      else
        ((split_newlines s).dropLast).map rstrip_cr ++
          (split_newlines s).drop ((split_newlines s).length - 1) := rfl

/-- Helper: `cons_head` never yields an empty split. -/
theorem cons_head_ne_nil (c : Char) (ps : List (List Char)) :
    cons_head c ps ≠ [] := by
  cases ps <;> simp [cons_head]

/-- Helper: a newline split is never empty. -/
theorem split_newlines_ne_nil (s : List Char) : split_newlines s ≠ [] := by
  induction s with
  | nil => simp [split_newlines]
  | cons c rest ih =>
    by_cases hc : c = '\n' <;> simp [split_newlines, hc, cons_head_ne_nil]

/-- Helper: `cons_head` distributes over a nonempty first part. -/
theorem cons_head_append (c : Char) (ps qs : List (List Char)) (h : ps ≠ []) :
    cons_head c (ps ++ qs) = cons_head c ps ++ qs := by
  cases ps with
  | nil => exact absurd rfl h
  | cons p ps2 => simp [cons_head]

/-- Helper: pieces of a newline split contain no newline. -/
theorem split_newlines_no_nl (s : List Char) :
    ∀ l ∈ split_newlines s, '\n' ∉ l := by
  induction s with
  | nil =>
    intro l hl
    simp [split_newlines] at hl
    subst hl; simp
  | cons c rest ih =>
    intro l hl
    by_cases hc : c = '\n'
    · simp [split_newlines, hc] at hl
      rcases hl with hl | hl
      · subst hl; simp
      · exact ih l hl
    · simp only [split_newlines, hc, if_false, reduceIte] at hl
      cases hsp : split_newlines rest with
      | nil => exact absurd hsp (split_newlines_ne_nil rest)
      | cons p ps =>
        rw [hsp] at hl
        simp only [cons_head] at hl
        rcases List.mem_cons.mp hl with hl | hl
        · subst hl
          intro hmem
          rcases List.mem_cons.mp hmem with hh | hh
          · exact hc hh.symm
          · exact ih p (by rw [hsp]; exact List.mem_cons_self p ps) hh
        · exact ih l (by rw [hsp]; exact List.mem_cons_of_mem p hl)

/-- Helper: stripping a carriage return preserves newline-freeness. -/
theorem rstrip_cr_no_nl (l : List Char) (h : '\n' ∉ l) :
    '\n' ∉ rstrip_cr l := by
  unfold rstrip_cr
  split
  · exact fun hm => h ((List.dropLast_sublist l).subset hm)
  · exact h

/-- Helper: every line of `str_lines` is newline-free. -/
theorem str_lines_no_nl (s : List Char) : ∀ l ∈ str_lines s, '\n' ∉ l := by
  intro l hl
  rw [str_lines_def] at hl
  split at hl
  · obtain ⟨p, hp, hpl⟩ := List.mem_map.mp hl
    rw [← hpl]
    exact rstrip_cr_no_nl p
      (split_newlines_no_nl s p ((List.dropLast_sublist _).subset hp))
  · rcases List.mem_append.mp hl with hl2 | hl2
    · obtain ⟨p, hp, hpl⟩ := List.mem_map.mp hl2
      rw [← hpl]
      exact rstrip_cr_no_nl p
        (split_newlines_no_nl s p ((List.dropLast_sublist _).subset hp))
    · exact split_newlines_no_nl s l (List.drop_subset _ _ hl2)

/-- Helper: equation of `split_newlines` at a newline. -/
theorem split_newlines_cons_nl (rest : List Char) :
    split_newlines ('\n' :: rest) = [] :: split_newlines rest := by
  simp [split_newlines]

/-- Helper: equation of `split_newlines` at a non-newline character. -/
theorem split_newlines_cons (c : Char) (rest : List Char) (hc : c ≠ '\n') :
    split_newlines (c :: rest) = cons_head c (split_newlines rest) := by
  simp [split_newlines, hc]

/-- Helper: splitting after appending a final newline appends one empty
piece. -/
theorem split_newlines_append_nl (t : List Char) :
    split_newlines (t ++ ['\n']) = split_newlines t ++ [[]] := by
  induction t with
  | nil => rfl
  | cons c rest ih =>
    by_cases hc : c = '\n'
    · subst hc
      rw [List.cons_append, split_newlines_cons_nl, split_newlines_cons_nl, ih,
        List.cons_append]
    · rw [List.cons_append, split_newlines_cons c _ hc, split_newlines_cons c _ hc,
        ih, cons_head_append c _ _ (split_newlines_ne_nil rest)]

/-- Helper: a newline-free string splits to itself. -/
theorem split_newlines_of_no_nl (a : List Char) (h : '\n' ∉ a) :
    split_newlines a = [a] := by
  induction a with
  | nil => rfl
  | cons c rest ih =>
    have hc : c ≠ '\n' := fun hcc => h (by rw [hcc]; exact List.mem_cons_self _ _)
    have hr : '\n' ∉ rest := fun hm => h (List.mem_cons_of_mem c hm)
    rw [split_newlines_cons c rest hc, ih hr]
    rfl

/-- Helper: splitting a newline-free piece glued before a newline peels
it off. -/
theorem split_newlines_glue (x w : List Char) (h : '\n' ∉ x) :
    split_newlines (x ++ '\n' :: w) = x :: split_newlines w := by
  induction x with
  | nil => rw [List.nil_append, split_newlines_cons_nl]
  | cons c rest ih =>
    have hc : c ≠ '\n' := fun hcc => h (by rw [hcc]; exact List.mem_cons_self _ _)
    have hr : '\n' ∉ rest := fun hm => h (List.mem_cons_of_mem c hm)
    rw [List.cons_append, split_newlines_cons c _ hc, ih hr]
    rfl

/-- Helper: joining a piece onto a nonempty rest inserts one newline. -/
theorem join_newlines_cons (x : List Char) (r : List (List Char)) (h : r ≠ []) :
    join_newlines (x :: r) = x ++ '\n' :: join_newlines r := by
  cases r with
  | nil => exact absurd rfl h
  | cons y ys => rfl

/-- Helper: splitting inverts joining for nonempty newline-free
pieces. -/
theorem split_join_newlines (T : List (List Char)) (h0 : T ≠ [])
    (h : ∀ l ∈ T, '\n' ∉ l) :
    split_newlines (join_newlines T) = T := by
  induction T with
  | nil => exact absurd rfl h0
  | cons x xs ih =>
    cases xs with
    | nil =>
      exact split_newlines_of_no_nl x (h x (List.mem_cons_self _ _))
    | cons y ys =>
      rw [join_newlines_cons x (y :: ys) (by simp)]
      rw [split_newlines_glue x (join_newlines (y :: ys))
        (h x (List.mem_cons_self _ _))]
      rw [ih (by simp) (fun l hl => h l (List.mem_cons_of_mem x hl))]

/-- Helper: the element named by `getLast?` is a member. -/
theorem mem_of_getLast? {α : Type} {l : List α} {a : α}
    (h : l.getLast? = some a) : a ∈ l := by
  obtain ⟨hne, heq⟩ := List.mem_getLast?_eq_getLast (l := l) (x := a) h
  rw [heq]
  exact List.getLast_mem hne

/-- Helper: a newline-free string does not end in a newline. -/
theorem no_nl_getLast (l : List Char) (h : '\n' ∉ l) :
    l.getLast? ≠ some '\n' :=
  fun hc => h (mem_of_getLast? hc)

/-- Helper: trimming trailing newlines from a string not ending in a
newline is the identity. -/
theorem rdrop_newlines_id (l : List Char) (h : l.getLast? ≠ some '\n') :
    rdrop_newlines l = l := by
  induction l with
  | nil => rfl
  | cons c rest ih =>
    cases rest with
    | nil =>
      have hc : ¬(c = '\n') := fun hcc => h (by rw [hcc]; rfl)
      simp [rdrop_newlines, hc]
    | cons d rest2 =>
      rw [List.getLast?_cons_cons] at h
      have hr := ih h
      show (if rdrop_newlines (d :: rest2) = [] ∧ c = '\n' then []
        else c :: rdrop_newlines (d :: rest2)) = c :: d :: rest2
      rw [hr, if_neg (by simp)]

/-- Helper: a newline glued before fully-trimmed text trims away too. -/
theorem rdrop_newlines_append_of_nil (w : List Char)
    (hw : rdrop_newlines w = []) (u : List Char) :
    rdrop_newlines (u ++ '\n' :: w) = rdrop_newlines u := by
  induction u with
  | nil => simp [rdrop_newlines, hw]
  | cons c rest ih =>
    have hstep : rdrop_newlines (c :: (rest ++ '\n' :: w)) =
        (if rdrop_newlines (rest ++ '\n' :: w) = [] ∧ c = '\n' then []
          else c :: rdrop_newlines (rest ++ '\n' :: w)) := rfl
    rw [List.cons_append, hstep, ih]
    rfl

/-- Helper: trimming stops before a newline glued onto text that does
not trim to nothing. -/
theorem rdrop_newlines_append_of_ne_nil (w : List Char)
    (hw : rdrop_newlines w ≠ []) (u : List Char) :
    rdrop_newlines (u ++ '\n' :: w) = u ++ '\n' :: rdrop_newlines w := by
  induction u with
  | nil =>
    rw [List.nil_append, List.nil_append]
    show (if rdrop_newlines w = [] ∧ '\n' = '\n' then []
      else '\n' :: rdrop_newlines w) = '\n' :: rdrop_newlines w
    rw [if_neg (by simp [hw])]
  | cons c rest ih =>
    have hstep : rdrop_newlines (c :: (rest ++ '\n' :: w)) =
        (if rdrop_newlines (rest ++ '\n' :: w) = [] ∧ c = '\n' then []
          else c :: rdrop_newlines (rest ++ '\n' :: w)) := rfl
    rw [List.cons_append, hstep, ih, if_neg (by simp), List.cons_append]

/-- Helper: members survive `rdrop_empty`. -/
theorem mem_rdrop_empty (G : List (List Char)) (l : List Char)
    (h : l ∈ rdrop_empty G) : l ∈ G := by
  induction G with
  | nil => simp [rdrop_empty] at h
  | cons x rest ih =>
    simp only [rdrop_empty] at h
    split at h
    · simp at h
    · rcases List.mem_cons.mp h with h1 | h1
      · rw [h1]; exact List.mem_cons_self _ _
      · exact List.mem_cons_of_mem x (ih h1)

/-- Helper: a nonempty `rdrop_empty` result does not end in an empty
piece. -/
theorem rdrop_empty_getLast (G : List (List Char))
    (h : rdrop_empty G ≠ []) : (rdrop_empty G).getLast? ≠ some [] := by
  induction G with
  | nil => simp [rdrop_empty] at h
  | cons x rest ih =>
    have hdef : rdrop_empty (x :: rest) =
        (if rdrop_empty rest = [] ∧ x = [] then []
          else x :: rdrop_empty rest) := rfl
    rw [hdef] at h ⊢
    by_cases hcond : rdrop_empty rest = [] ∧ x = []
    · rw [if_pos hcond] at h
      exact absurd rfl h
    · rw [if_neg hcond] at h ⊢
      by_cases hr : rdrop_empty rest = []
      · have hx : x ≠ [] := fun hxe => hcond ⟨hr, hxe⟩
        rw [hr]
        intro hcc
        simp at hcc
        exact hx hcc
      · cases hrr : rdrop_empty rest with
        | nil => exact absurd hrr hr
        | cons y ys =>
          rw [List.getLast?_cons_cons]
          have hih := ih hr
          rw [hrr] at hih
          exact hih

/-- Helper: a nonempty `rdrop_empty` result keeps the original head. -/
theorem rdrop_empty_head (G : List (List Char))
    (h : rdrop_empty G ≠ []) : (rdrop_empty G).head? = G.head? := by
  cases G with
  | nil => rfl
  | cons x rest =>
    have hdef : rdrop_empty (x :: rest) =
        (if rdrop_empty rest = [] ∧ x = [] then []
          else x :: rdrop_empty rest) := rfl
    rw [hdef] at h ⊢
    by_cases hcond : rdrop_empty rest = [] ∧ x = []
    · rw [if_pos hcond] at h
      exact absurd rfl h
    · rw [if_neg hcond]
      rfl

/-- Helper: the first element kept by `dropWhile` refutes the
predicate. -/
theorem dropWhile_first {α : Type} (p : α → Bool) (G : List α) :
    G.dropWhile p = [] ∨
      ∃ x xs, G.dropWhile p = x :: xs ∧ p x = false := by
  induction G with
  | nil => exact Or.inl rfl
  | cons g G2 ih =>
    by_cases hg : p g = true
    · rw [List.dropWhile_cons, if_pos hg]
      exact ih
    · rw [List.dropWhile_cons, if_neg hg]
      exact Or.inr ⟨g, G2, rfl, by simpa using hg⟩

/-- Helper: trimming leading newlines of a join trims leading empty
pieces. -/
theorem dropWhile_nl_join (F : List (List Char))
    (h : ∀ l ∈ F, '\n' ∉ l) :
    (join_newlines F).dropWhile (fun c => c == '\n') =
      join_newlines (F.dropWhile (fun l => l.isEmpty)) := by
  induction F with
  | nil => rfl
  | cons x rest ih =>
    cases hx : x with
    | nil =>
      subst hx
      cases rest with
      | nil => rfl
      | cons y ys =>
        rw [join_newlines_cons [] (y :: ys) (by simp), List.nil_append,
          List.dropWhile_cons, if_pos (by rfl),
          ih (fun l hl => h l (List.mem_cons_of_mem [] hl)),
          show List.dropWhile (fun l : List Char => l.isEmpty) ([] :: y :: ys) =
            List.dropWhile (fun l : List Char => l.isEmpty) (y :: ys) from by
            simp]
    | cons c x2 =>
      subst hx
      have hcne : c ≠ '\n' := fun hcc =>
        h (c :: x2) (List.mem_cons_self _ _)
          (by rw [hcc]; exact List.mem_cons_self _ _)
      have hc : ¬((c == '\n') = true) := by simp [hcne]
      cases rest with
      | nil =>
        show List.dropWhile (fun c => c == '\n') (c :: x2) =
          join_newlines (List.dropWhile (fun l : List Char => l.isEmpty) [c :: x2])
        rw [List.dropWhile_cons, if_neg hc,
          show List.dropWhile (fun l : List Char => l.isEmpty) [c :: x2] =
            [c :: x2] from by rw [List.dropWhile_cons, if_neg (by simp)]]
        rfl
      | cons y ys =>
        rw [join_newlines_cons (c :: x2) (y :: ys) (by simp), List.cons_append,
          List.dropWhile_cons, if_neg hc,
          show List.dropWhile (fun l : List Char => l.isEmpty) ((c :: x2) :: y :: ys) =
            (c :: x2) :: y :: ys from by
            rw [List.dropWhile_cons, if_neg (by simp)],
          join_newlines_cons (c :: x2) (y :: ys) (by simp), List.cons_append]

/-- Helper: a join whose last piece is nonempty is nonempty and ends
with the last piece's last character. -/
theorem join_newlines_getLast (T : List (List Char)) (lst : List Char)
    (hl : T.getLast? = some lst) (hne : lst ≠ []) :
    join_newlines T ≠ [] ∧ (join_newlines T).getLast? = lst.getLast? := by
  induction T with
  | nil => simp at hl
  | cons x xs ih =>
    cases xs with
    | nil =>
      have hx : x = lst := by simpa using hl
      subst hx
      exact ⟨hne, rfl⟩
    | cons y ys =>
      rw [List.getLast?_cons_cons] at hl
      obtain ⟨hjne, hjl⟩ := ih hl
      rw [join_newlines_cons x (y :: ys) (by simp)]
      constructor
      · simp
      · rw [List.getLast?_append_of_ne_nil x (by simp)]
        cases hj : join_newlines (y :: ys) with
        | nil => exact absurd hj hjne
        | cons j js =>
          rw [List.getLast?_cons_cons, ← hj, hjl]

/-- Helper: trimming trailing newlines of a join trims trailing empty
pieces. -/
theorem rdrop_nl_join (F : List (List Char)) (h : ∀ l ∈ F, '\n' ∉ l) :
    rdrop_newlines (join_newlines F) = join_newlines (rdrop_empty F) := by
  induction F with
  | nil => rfl
  | cons x rest ih =>
    have hrest : ∀ l ∈ rest, '\n' ∉ l := fun l hl => h l (List.mem_cons_of_mem x hl)
    have hxnl : '\n' ∉ x := h x (List.mem_cons_self _ _)
    have hdef : rdrop_empty (x :: rest) =
        (if rdrop_empty rest = [] ∧ x = [] then []
          else x :: rdrop_empty rest) := rfl
    cases rest with
    | nil =>
      rw [hdef]
      by_cases hx : x = []
      · rw [if_pos ⟨rfl, hx⟩, hx]
        rfl
      · rw [if_neg (by simp [hx])]
        show rdrop_newlines x = join_newlines [x]
        rw [rdrop_newlines_id x (no_nl_getLast x hxnl)]
        rfl
    | cons y ys =>
      rw [join_newlines_cons x (y :: ys) (by simp), hdef]
      by_cases hr : rdrop_empty (y :: ys) = []
      · have hjr : rdrop_newlines (join_newlines (y :: ys)) = [] := by
          rw [ih hrest, hr]
          rfl
        rw [rdrop_newlines_append_of_nil _ hjr x]
        by_cases hx : x = []
        · rw [if_pos ⟨hr, hx⟩, hx]
          rfl
        · rw [if_neg (by simp [hr, hx]), hr]
          show rdrop_newlines x = join_newlines [x]
          rw [rdrop_newlines_id x (no_nl_getLast x hxnl)]
          rfl
      · have hlast := rdrop_empty_getLast (y :: ys) hr
        obtain ⟨lst, hlst⟩ : ∃ lst, (rdrop_empty (y :: ys)).getLast? = some lst := by
          cases hg : (rdrop_empty (y :: ys)).getLast? with
          | none => exact absurd (List.getLast?_eq_none_iff.mp hg) hr
          | some l => exact ⟨l, rfl⟩
        have hlstne : lst ≠ [] := fun hc => hlast (by rw [hlst, hc])
        obtain ⟨hjne, _⟩ := join_newlines_getLast (rdrop_empty (y :: ys)) lst hlst hlstne
        have hjr : rdrop_newlines (join_newlines (y :: ys)) ≠ [] := by
          rw [ih hrest]
          exact hjne
        rw [rdrop_newlines_append_of_ne_nil _ hjr x, ih hrest]
        rw [if_neg (by simp [hr])]
        rw [join_newlines_cons x (rdrop_empty (y :: ys)) hr]

/-- Helper: stripping a carriage return from a line not ending in one is
the identity. -/
theorem rstrip_cr_id (l : List Char) (h : l.getLast? ≠ some '\r') :
    rstrip_cr l = l := by
  unfold rstrip_cr
  rw [if_neg h]

/-- Helper: mapping carriage-return stripping over lines not ending in
one is the identity. -/
theorem map_rstrip_cr_id (T : List (List Char))
    (h : ∀ l ∈ T, l.getLast? ≠ some '\r') : T.map rstrip_cr = T := by
  induction T with
  | nil => rfl
  | cons x xs ih =>
    rw [List.map_cons, rstrip_cr_id x (h x (List.mem_cons_self _ _)),
      ih (fun l hl => h l (List.mem_cons_of_mem x hl))]

/-- Helper: the lines of a join of nonempty-ended, newline-free,
carriage-return-free pieces followed by a final newline are exactly the
pieces. -/
theorem str_lines_join_concat (T : List (List Char)) (h0 : T ≠ [])
    (hnl : ∀ l ∈ T, '\n' ∉ l) (hcr : ∀ l ∈ T, l.getLast? ≠ some '\r') :
    str_lines (join_newlines T ++ ['\n']) = T := by
  rw [str_lines_def, split_newlines_append_nl (join_newlines T),
    split_join_newlines T h0 hnl, List.getLast?_concat, if_pos rfl,
    List.dropLast_concat]
  exact map_rstrip_cr_id T hcr

/-- Helper: completing a nonempty text that does not end in a newline
appends one. -/
theorem complete_newline_append (l : List Char) (h0 : l ≠ [])
    (h1 : l.getLast? ≠ some '\n') : complete_newline l = l ++ ['\n'] := by
  unfold complete_newline
  rw [if_neg h0, if_neg h1]

/-- Helper: a join starts with its first piece's first character when
that piece is nonempty. -/
theorem join_newlines_head (x : List Char) (xs : List (List Char))
    (h : x ≠ []) : (join_newlines (x :: xs)).head? = x.head? := by
  cases xs with
  | nil => rfl
  | cons y ys =>
    rw [join_newlines_cons x (y :: ys) (by simp)]
    exact List.head?_append_of_ne_nil x h

/-- Helper: dropping leading newlines from a string whose head is not a
newline is the identity. -/
theorem dropWhile_nl_id (l : List Char) (c : Char) (h : l.head? = some c)
    (hc : (c == '\n') = false) :
    l.dropWhile (fun c => c == '\n') = l := by
  cases l with
  | nil => rfl
  | cons d l2 =>
    have hd : d = c := by simpa using h
    subst hd
    rw [List.dropWhile_cons, if_neg (by simp [hc])]

/-- C9 counterexample: `cleanup_description` is not idempotent.  On the
input `"a\r\r\nb"` the first pass yields `"a\r\nb\n"`, whose carriage
return the second pass removes together with the following newline. -/
theorem cleanup_description_not_idempotent :
    cleanup_description (cleanup_description description_cex) ≠
      cleanup_description description_cex
    ∧ cleanup_description description_cex = ['a', '\r', '\n', 'b', '\n']
    ∧ cleanup_description (cleanup_description description_cex) =
      ['a', '\n', 'b', '\n'] := by decide

/-- C9 amended: `cleanup_description` is idempotent on every input none
of whose lines ends with a carriage return; its output then has no
"JJ: " lines left to remove, no leading or trailing blank lines, and a
final newline that a second application preserves. -/
theorem cleanup_description_idempotent_no_cr (s : List Char)
    (h : ∀ l ∈ str_lines s, l.getLast? ≠ some '\r') :
    cleanup_description (cleanup_description s) = cleanup_description s := by
  have hFnl : ∀ l ∈ (str_lines s).filter (fun l => !(List.isPrefixOf JJ_line_tag l)),
      '\n' ∉ l :=
    fun l hl => str_lines_no_nl s l (List.mem_filter.mp hl).1
  set F := (str_lines s).filter (fun l => !(List.isPrefixOf JJ_line_tag l)) with hFdef
  set F1 := F.dropWhile (fun l => l.isEmpty) with hF1def
  set T := rdrop_empty F1 with hTdef
  have hF1nl : ∀ l ∈ F1, '\n' ∉ l := by
    intro l hl
    rw [hF1def] at hl
    exact hFnl l ((List.dropWhile_sublist _).subset hl)
  have hTmemF : ∀ l ∈ T, l ∈ F := by
    intro l hl
    rw [hTdef] at hl
    have h2 := mem_rdrop_empty F1 l hl
    rw [hF1def] at h2
    exact (List.dropWhile_sublist _).subset h2
  have hTnl : ∀ l ∈ T, '\n' ∉ l := fun l hl => hFnl l (hTmemF l hl)
  have hTcr : ∀ l ∈ T, l.getLast? ≠ some '\r' := by
    intro l hl
    have h2 := hTmemF l hl
    rw [hFdef] at h2
    exact h l (List.mem_filter.mp h2).1
  have hTjj : ∀ l ∈ T, (!(List.isPrefixOf JJ_line_tag l)) = true := by
    intro l hl
    have h2 := hTmemF l hl
    rw [hFdef] at h2
    exact (List.mem_filter.mp h2).2
  have hclean1 : cleanup_description s = complete_newline (join_newlines T) := by
    rw [cleanup_description_def s, ← hFdef, dropWhile_nl_join F hFnl, ← hF1def,
      rdrop_nl_join F1 hF1nl, ← hTdef]
  by_cases hT : T = []
  · have h1 : cleanup_description s = [] := by
      rw [hclean1, hT]
      rfl
    rw [h1]
    decide
  · obtain ⟨x, xs, hTxs⟩ := List.exists_cons_of_ne_nil hT
    have hTne2 : rdrop_empty F1 ≠ [] := by rw [← hTdef]; exact hT
    have hF1ne : F1 ≠ [] := by
      intro hc
      apply hT
      rw [hTdef, hc]
      rfl
    have hhead : T.head? = F1.head? := by
      rw [hTdef]
      exact rdrop_empty_head F1 hTne2
    rcases dropWhile_first (fun l : List Char => l.isEmpty) F with hnil | hex
    · rw [← hF1def] at hnil
      exact absurd hnil hF1ne
    obtain ⟨y, ys, hys, hy⟩ := hex
    rw [← hF1def] at hys
    have hxy : x = y := by
      have h3 : T.head? = some y := by rw [hhead, hys]; rfl
      rw [hTxs] at h3
      simpa using h3
    have hxne : x ≠ [] := by
      rw [hxy]
      intro hc
      rw [hc] at hy
      simp at hy
    have hTlast : T.getLast? ≠ some [] := by
      rw [hTdef]
      exact rdrop_empty_getLast F1 hTne2
    obtain ⟨lst, hlst⟩ : ∃ lst, T.getLast? = some lst := by
      cases hg : T.getLast? with
      | none => exact absurd (List.getLast?_eq_none_iff.mp hg) hT
      | some l => exact ⟨l, rfl⟩
    have hlstne : lst ≠ [] := fun hc => hTlast (by rw [hlst, hc])
    obtain ⟨hjne, hjlast_eq⟩ := join_newlines_getLast T lst hlst hlstne
    have hjlast : (join_newlines T).getLast? ≠ some '\n' := by
      rw [hjlast_eq]
      exact no_nl_getLast lst (hTnl lst (mem_of_getLast? hlst))
    have hout : cleanup_description s = join_newlines T ++ ['\n'] := by
      rw [hclean1]
      exact complete_newline_append _ hjne hjlast
    have hlines2 : str_lines (join_newlines T ++ ['\n']) = T :=
      str_lines_join_concat T hT hTnl hTcr
    obtain ⟨c, x2, hcx⟩ := List.exists_cons_of_ne_nil hxne
    have hcmem : c ∈ x := by rw [hcx]; exact List.mem_cons_self _ _
    have hcne : (c == '\n') = false := by
      have h4 : '\n' ∉ x := hTnl x (by rw [hTxs]; exact List.mem_cons_self _ _)
      simp only [beq_eq_false_iff_ne, ne_eq]
      exact fun hcc => h4 (hcc ▸ hcmem)
    have hjh : (join_newlines T).head? = some c := by
      rw [hTxs, join_newlines_head x xs hxne, hcx]
      rfl
    rw [hout, cleanup_description_def, hlines2,
      List.filter_eq_self.mpr hTjj,
      dropWhile_nl_id (join_newlines T) c hjh hcne,
      rdrop_newlines_id _ hjlast]
    exact complete_newline_append _ hjne hjlast

/-- C9 witness: idempotence at a concrete carriage-return-free input
with a "JJ: " line and blank lines. -/
theorem cleanup_description_idempotent_no_cr_witness :
    (∀ l ∈ str_lines description_wit, l.getLast? ≠ some '\r') ∧
    cleanup_description (cleanup_description description_wit) =
      cleanup_description description_wit :=
  ⟨by decide, cleanup_description_idempotent_no_cr description_wit (by decide)⟩

end JJ
